import Mathlib

/-!
Verification development for a Busy Beaver search program
(`busybeaver.py`): a sparse tape, a Turing-machine interpreter,
an exhaustive enumerator of transition tables, and two search
drivers (`sigma` and the resumable `Generator`).

The Python source is shallowly embedded: the `defaultdict`-backed
tape becomes an insertion-ordered association list, the interpreter's
`KeyError`-as-halt control flow becomes `Except`, and machine
integers become `Nat`/`Int`.
-/

namespace BB

/-- Association-list lookup, modelling Python `dict` key lookup
(`d[k]` / `k in d`). -/
def alookup {κ α : Type} [DecidableEq κ] (k : κ) : List (κ × α) → Option α
  | [] => none
  | (k', v) :: rest => if k = k' then some v else alookup k rest

/-- Association-list update, modelling Python `d[k] = v`: an existing
key keeps its place in insertion order, a new key is appended. -/
def dinsert {κ α : Type} [DecidableEq κ] (k : κ) (v : α) :
    List (κ × α) → List (κ × α)
  | [] => [(k, v)]
  | (k', v') :: rest =>
      if k = k' then (k, v) :: rest else (k', v') :: dinsert k v rest

/-- The pickling-friendly zero default factory of the tape
(`def zero(): return 0`). -/
def zero : Nat := 0

/-- The sparse tape (`class Tape`): a `defaultdict` from cell index to
symbol, a head position, the extremes visited, and the shift counter. -/
structure Tape where
  data : List (Int × Nat)
  position : Int
  leftmost : Int
  rightmost : Int
  shifts : Nat
deriving DecidableEq

/-- `Tape.__init__(position=0)`: empty mapping, `leftmost = min(0, position)`,
`rightmost = max(0, position)`, `shifts = 0`. -/
def Tape.init (position : Int) : Tape :=
  { data := [], position := position, leftmost := min 0 position,
    rightmost := max 0 position, shifts := 0 }

/-- `Tape._update_extremes`. -/
def Tape.updateExtremes (t : Tape) : Tape :=
  { t with leftmost := min t.leftmost t.position,
           rightmost := max t.rightmost t.position }

/-- The `position` property setter: `shifts += abs(old - new)`, move the
head, then update the extremes. -/
def Tape.setPos (t : Tape) (value : Int) : Tape :=
  Tape.updateExtremes
    { t with shifts := t.shifts + (t.position - value).natAbs,
             position := value }

/-- `Tape.read`: `self.data[self.position]` on a `defaultdict` — returns
the stored value, or inserts and returns the default `zero` when the
key is absent.  The possibly-grown tape is returned alongside. -/
def Tape.read (t : Tape) : Nat × Tape :=
  match alookup t.position t.data with
  | some v => (v, t)
  | none => (zero, { t with data := t.data ++ [(t.position, zero)] })

/-- `Tape.write(value)`. -/
def Tape.write (t : Tape) (value : Nat) : Tape :=
  { t with data := dinsert t.position value t.data }

/-- `Tape.left`: `self.position -= 1` through the property setter. -/
def Tape.left (t : Tape) : Tape := t.setPos (t.position - 1)

/-- `Tape.right`: `self.position += 1` through the property setter. -/
def Tape.right (t : Tape) : Tape := t.setPos (t.position + 1)

/-- `sorted(self.data.keys())`. -/
def Tape.sortedKeys (t : Tape) : List Int :=
  List.insertionSort (· ≤ ·) (t.data.map Prod.fst)

/-- `Tape.values`: the stored values in sorted key order. -/
def Tape.values (t : Tape) : List Nat :=
  t.sortedKeys.map (fun k => (alookup k t.data).getD zero)

/-- Python `dict.items()` view equality: the same set of key/value
pairs, irrespective of insertion order. -/
def itemsEqv (a b : List (Int × Nat)) : Prop :=
  (∀ p ∈ a, p ∈ b) ∧ (∀ p ∈ b, p ∈ a)

instance (a b : List (Int × Nat)) : Decidable (itemsEqv a b) := by
  unfold itemsEqv; infer_instance

/-- `Tape.__eq__`: positions, extremes, shift counters and item sets
all agree. -/
def Tape.eqv (a b : Tape) : Prop :=
  a.position = b.position ∧ a.leftmost = b.leftmost ∧
  a.rightmost = b.rightmost ∧ a.shifts = b.shifts ∧
  itemsEqv a.data b.data

instance (a b : Tape) : Decidable (Tape.eqv a b) := by
  unfold Tape.eqv; infer_instance

/-- A machine state: an integer state, or the halting pseudo-state
(the string `"Z"` in the source). -/
inductive NState where
  | st : Nat → NState
  | Z : NState
deriving DecidableEq

/-- An instruction `(symbol to write, move left (-1) or right (1),
next state)`. -/
abbrev Instr := Nat × Int × NState

/-- A transition table: a dict keyed by `(current state, symbol read)`. -/
abbrev Table := List ((Nat × Nat) × Instr)

/-- `TuringMachine` (with the `halts` flag of the `BusyBeaver`
subclass): a state, a fresh tape, and a transition table. -/
structure Machine where
  state : NState := .st 0
  tape : Tape := Tape.init 0
  transition : Table
  halts : Option Bool := none
deriving DecidableEq

/-- Lookup of `self.transition[(self.state, symbol)]`; the pseudo-state
`Z` is never a key, so looking it up fails. -/
def lookupTrans (tbl : Table) (s : NState) (sym : Nat) : Option Instr :=
  match s with
  | .Z => none
  | .st k => alookup (k, sym) tbl

/-- `TuringMachine.step`: read the symbol under the head (materialising
the cell), look up the action, then write, move and change state.
A failed lookup raises `KeyError` (`Except.error`), carrying the
machine as it stands after the read. -/
def Machine.step (m : Machine) : Except Machine Machine :=
  let r := m.tape.read
  match lookupTrans m.transition m.state r.1 with
  | none => .error { m with tape := r.2 }
  | some (symbol, move, state) =>
      let written := r.2.write symbol
      let moved := written.setPos (written.position + move)
      .ok { m with tape := moved, state := state }

/-- `TuringMachine.run(steps)`: perform `steps` steps, propagating a
`KeyError` raised by any of them. -/
def Machine.runSteps (m : Machine) : Nat → Except Machine Machine
  | 0 => .ok m
  | k+1 =>
      match m.step with
      | .error m' => .error m'
      | .ok m' => m'.runSteps k

/-- `BusyBeaver.ones`: `sum(self.tape.values())`. -/
def Machine.ones (m : Machine) : Nat := m.tape.values.sum

/-- `BusyBeaver.coded_ones`: the tape values read as a binary numeral
(`int("".join(map(str, values)), 2)`). -/
def Machine.coded_ones (m : Machine) : Nat :=
  m.tape.values.foldl (fun a d => 2 * a + d) 0

/-- `binary_machines(n) = (4*(n+1))**(2*n)`. -/
def binary_machines (n : Nat) : Nat := (4 * (n + 1)) ^ (2 * n)

/-- `enum_instructions(states)`: for each state in
`reversed(["Z"] + list(range(states)))`, each symbol in `[0, 1]` and
each move in `[-1, 1]`, yield `(symbol, move, state)`. -/
def enum_instructions (n : Nat) : List Instr :=
  (NState.Z :: (List.range n).map NState.st).reverse.flatMap fun state =>
    [0, 1].flatMap fun symbol =>
      [(-1 : Int), 1].map fun move => (symbol, move, state)

/-- `itertools.product(A, repeat=k)`: all `k`-tuples over `A` in
lexicographic order, leftmost factor outermost. -/
def listProd {α : Type} (A : List α) : Nat → List (List α)
  | 0 => [[]]
  | k+1 => A.flatMap fun a => (listProd A k).map (a :: ·)

/-- The dict built by `enum_transitions` from one product tuple `i`:
keys `(state, symbol)` for `state < n`, `symbol < 2` in that loop
order, values the successive entries of `i` (guarded, as in the
source, by `len(i) > states`). -/
def buildTable (n : Nat) (i : List Instr) : Table :=
  if i.length > n then
    (List.range (2 * n)).map fun j => ((j / 2, j % 2), i.getD j (0, 1, .Z))
  else []

/-- `enum_transitions(states)`: one table per element of the product of
`enum_instructions(states)` over the `2n` slots. -/
def enum_transitions (n : Nat) : List Table :=
  (listProd (enum_instructions n) (2 * n)).map (buildTable n)

/-- `sigma(states)`: run every candidate for `107+1` steps; a `KeyError`
means it halted, and a halted candidate with strictly more ones than
the champion replaces it.  Returns the champion's ones count. -/
def sigma (n : Nat) : Nat :=
  (enum_transitions n).foldl
    (fun champion_ones tran =>
      match Machine.runSteps { transition := tran } (107 + 1) with
      | .ok _ => champion_ones
      | .error candidate =>
          if candidate.ones > champion_ones then candidate.ones
          else champion_ones)
    (({ transition := [] } : Machine).ones)

/-- A per-candidate entry of `Generator.results`:
`(candidate.halts, candidate.tape.shifts, candidate.coded_ones())`. -/
abbrev GenResult := Bool × Nat × Nat

/-- The body of `Generator.run` for one candidate: run it for
`1 + maxsteps` steps; `KeyError` means it halted. -/
def outcomeOf (maxsteps : Nat) (tran : Table) : GenResult :=
  match Machine.runSteps { transition := tran } (1 + maxsteps) with
  | .ok candidate => (false, candidate.tape.shifts, candidate.coded_ones)
  | .error candidate => (true, candidate.tape.shifts, candidate.coded_ones)

/-- Fuel-driven bit count, modelling `bin(n).count("1")`
(`Generator.popcount`). -/
def popcountGo : Nat → Nat → Nat
  | 0, _ => 0
  | fuel+1, n => if n = 0 then 0 else popcountGo fuel (n / 2) + n % 2

/-- `Generator.popcount(n)`. -/
def popcount (n : Nat) : Nat := popcountGo n n

/-- `Generator.champion`: `best = max(best, popcount(tape))` over every
entry of `results`, starting from 0. -/
def championOf (results : List GenResult) : Nat :=
  results.foldl (fun best r => max best (popcount r.2.2)) 0

/-- The enumeration loop of `Generator.run`: candidates are numbered
from 1; a candidate whose number is `< len(self.results)` is skipped,
every other candidate's result is appended (so `self.count` grows as
the loop runs). -/
def genLoop (out : Table → GenResult) :
    List Table → Nat → List GenResult → List GenResult
  | [], _, results => results
  | t :: ts, no, results =>
      if no < results.length then genLoop out ts (no + 1) results
      else genLoop out ts (no + 1) (results ++ [out t])

/-- `Generator.run` on the pure search state: fold the enumeration for
`states` over the saved results. -/
def generatorRun (states maxsteps : Nat) (saved : List GenResult) :
    List GenResult :=
  genLoop (outcomeOf maxsteps) (enum_transitions states) 1 saved

/-- The results of a completed uninterrupted run: one `GenResult` per
enumerated table, in enumeration order. -/
def fullResults (states maxsteps : Nat) : List GenResult :=
  (enum_transitions states).map (outcomeOf maxsteps)

/-- The head-moving operations of the `Tape` interface: `left()`,
`right()`, and direct `position` assignment. -/
inductive TapeOp where
  | left : TapeOp
  | right : TapeOp
  | setPos : Int → TapeOp
deriving DecidableEq

/-- Apply one movement operation to a tape. -/
def applyOp (t : Tape) : TapeOp → Tape
  | .left => t.left
  | .right => t.right
  | .setPos v => t.setPos v

/-- The head position an operation moves to. -/
def opTarget (p : Int) : TapeOp → Int
  | .left => p - 1
  | .right => p + 1
  | .setPos v => v

/-- The sum of absolute position deltas along an operation sequence
started at position `p`. -/
def sumDeltas (p : Int) : List TapeOp → Nat
  | [] => 0
  | op :: rest => (opTarget p op - p).natAbs + sumDeltas (opTarget p op) rest

/-- Modelled from the spec: the per-slot instruction ordering claimed in
§4.3 — "symbol outer, direction middle, next-state inner, with HALT
conventionally ordered adjacent to state 0" (HALT placed next to state
0, here immediately before it). -/
def specEnumInstructions (n : Nat) : List Instr :=
  [0, 1].flatMap fun symbol =>
    [(-1 : Int), 1].flatMap fun move =>
      (NState.Z :: (List.range n).map NState.st).map fun state =>
        (symbol, move, state)

/-- Modelled from the spec: the enumeration order §4.3 claims — the
lexicographic Cartesian product over the `2n` slots under
`specEnumInstructions`. -/
def specEnumTransitions (n : Nat) : List Table :=
  (listProd (specEnumInstructions n) (2 * n)).map (buildTable n)

/-- A fast-model instruction `(symbol to write, move-right flag,
next state)`, with `n` itself standing for the halt state `Z`. -/
abbrev FInstr := Nat × Bool × Nat

/-- The fast mirror of `enum_instructions`: same order, `FInstr`
encoding. -/
def fastInstructions (n : Nat) : List FInstr :=
  ((List.range n).reverse ++ [n]).flatMap fun state =>
    [0, 1].flatMap fun symbol =>
      [false, true].map fun mv => (symbol, mv, state)

/-- The fast instruction corresponding to a faithful instruction. -/
def instrOf (n : Nat) (i : FInstr) : Instr :=
  (i.1, if i.2.1 then 1 else -1, if i.2.2 = n then NState.Z else .st i.2.2)

/-- Radix encoding of one fast instruction as a digit below `4*(n+1)`. -/
def icode (i : FInstr) : Nat := i.1 + 2 * (cond i.2.1 1 0) + 4 * i.2.2

/-- Radix-`B` encoding of a fast table, slot 0 in the lowest digit. -/
def encodeTable (B : Nat) (tbl : List FInstr) : Nat :=
  tbl.foldr (fun i acc => icode i + B * acc) 0

/-- The fast interpreter: the two-sided tape is held as bit strings
`lt`/`rt` fanning out from the head, `cur` is the cell under the head,
`cnt` the running count of one-cells, and the table is the radix-`B`
number `T` with `nn` digits (one per slot); a slot index out of range
is the halt. -/
def frunN (B T nn : Nat) (fuel : Nat) : Nat → Nat → Nat → Nat → Nat → Bool × Nat :=
  Nat.rec (motive := fun _ => Nat → Nat → Nat → Nat → Nat → Bool × Nat)
    (fun _ _ _ _ cnt => (false, cnt))
    (fun _ ih s lt cur rt cnt =>
      let j := 2 * s + cur
      if j < nn then
        let c := T / B ^ j % B
        let w := c % 2
        if c / 2 % 2 = 1 then ih (c / 4) (2 * lt + w) (rt % 2) (rt / 2) (cnt + w - cur)
        else ih (c / 4) (lt / 2) (lt % 2) (2 * rt + w) (cnt + w - cur)
      else (true, cnt))
    fuel

/-- Whether a fast table contains a halting instruction at all; a table
without one can never halt. -/
def hasHalt (n : Nat) (tbl : List FInstr) : Bool :=
  tbl.any fun i => n ≤ i.2.2

/-- The score a candidate contributes to the champion: its ones count
when it halts within the budget, 0 otherwise. -/
def fscore (n : Nat) (tbl : List FInstr) : Nat :=
  Bool.casesOn (hasHalt n tbl) 0
    (Prod.casesOn
      (frunN (4 * (n + 1)) (encodeTable (4 * (n + 1)) tbl) (2 * n) 108 0 0 0 0 0)
      fun halted cnt => Bool.casesOn halted 0 cnt)

/-- The maximum `fscore` over all tables extending the prefix built by
`acc` with `k` further slots, computed as a 4-level nested fold so the
kernel can evaluate it without deep accumulator towers. -/
def fbest (n : Nat) (A : List FInstr) : Nat → (List FInstr → List FInstr) → Nat
  | 0, acc => fscore n (acc [])
  | k+1, acc =>
      A.foldl (fun b a => max b (fbest n A k fun l => acc (a :: l))) 0

/-- The fast search: maximum score over every fast table for `n`. -/
def fastSigma (n : Nat) : Nat :=
  fbest n (fastInstructions n) (2 * n) (fun l => l)

/-- One twelfth of the 2-state search space: all tables whose slot-0
instruction is `a`. -/
def chunkVal (a : FInstr) : Nat :=
  fbest 2 (fastInstructions 2) 3 (fun l => a :: l)

/-- The score one candidate table contributes in `sigma`'s fold: its
ones count when the bounded run raises `KeyError`, and 0 when the
budget is exhausted. -/
def scoreF (tbl : Table) : Nat :=
  match Machine.runSteps { transition := tbl } (107 + 1) with
  | .ok _ => 0
  | .error candidate => candidate.ones

/-- The value stored at cell `i` (the defaultdict's view: the stored
value, or the default 0). -/
def tval (d : List (Int × Nat)) (i : Int) : Nat := (alookup i d).getD zero

/-- The sum of all stored values. -/
def sumVals (d : List (Int × Nat)) : Nat := (d.map Prod.snd).sum

/-- Every stored value is a binary symbol. -/
def cells01 (d : List (Int × Nat)) : Prop := ∀ p ∈ d, p.2 ≤ 1

/-- The stored keys are distinct (always true of a Python dict). -/
def keysND (d : List (Int × Nat)) : Prop := (d.map Prod.fst).Nodup

/-- Bit `k` of a natural number. -/
def nbit (x k : Nat) : Nat := x / 2 ^ k % 2

/-- The faithful state denoted by a fast-model state (with `n` as the
halt pseudo-state). -/
def stOf (n s : Nat) : NState := if s = n then NState.Z else NState.st s

/-- Fast state `s` represents the machine state. -/
def StRel (n : Nat) (st : NState) (s : Nat) : Prop := s ≤ n ∧ st = stOf n s

/-- The fast tape view `(lt, cur, rt)` represents the sparse tape:
`cur` is the cell under the head and the bits of `lt`/`rt` fan out
left/right from it. -/
def TapeRel (t : Tape) (lt cur rt : Nat) : Prop :=
  cur = tval t.data t.position ∧
  (∀ k : Nat, nbit lt k = tval t.data (t.position - 1 - (k : Int))) ∧
  (∀ k : Nat, nbit rt k = tval t.data (t.position + 1 + (k : Int)))

/-- The full simulation relation between a faithful machine
configuration and a fast configuration. -/
def MRel (n : Nat) (m : Machine) (s lt cur rt cnt : Nat) : Prop :=
  StRel n m.state s ∧ TapeRel m.tape lt cur rt ∧
  cnt = sumVals m.tape.data ∧ cells01 m.tape.data ∧ keysND m.tape.data

/-- The relation between a faithful transition table and a fast table:
same `2n` slots, bounded components, lookups agreeing slotwise, and a
domain of exactly the pairs `(s, sym)` with `s < n`, `sym < 2`. -/
def TblRel (n : Nat) (tbl : Table) (ftbl : List FInstr) : Prop :=
  ftbl.length = 2 * n ∧
  (∀ i ∈ ftbl, i.1 ≤ 1 ∧ i.2.2 ≤ n) ∧
  (∀ s sym, s < n → sym < 2 →
    alookup (s, sym) tbl =
      some (instrOf n (ftbl.getD (2 * s + sym) (0, true, 0)))) ∧
  (∀ s sym (v : Instr), alookup (s, sym) tbl = some v → s < n ∧ sym < 2)

/-- Slot `j` of the radix-encoded fast table for `n` states. -/
def tdigit (n : Nat) (ftbl : List FInstr) (j : Nat) : Nat :=
  encodeTable (4 * (n + 1)) ftbl / (4 * (n + 1)) ^ j % (4 * (n + 1))

/-- `Machine.runSteps` viewed as a Boolean "no KeyError was raised". -/
def runOk (m : Machine) (k : Nat) : Bool :=
  match m.runSteps k with
  | .ok _ => true
  | .error _ => false

/-- The one-entry table of §8: `(write=1, move=right, next=HALT)` at
state 0 reading symbol 0, nothing else defined. -/
def bb9 : Machine := { transition := [((0, 0), (1, 1, NState.Z))] }

/-- The machine `bb9` ends as when its second step raises. -/
def bb9final : Machine :=
  match bb9.runSteps 2 with
  | .error c => c
  | .ok c => c

/-- Every transition table whose moves are all `±1`. -/
def movesOk (tbl : Table) : Prop :=
  ∀ e ∈ tbl, e.2.2.1 = 1 ∨ e.2.2.1 = -1

instance (tbl : Table) : Decidable (movesOk tbl) := by
  unfold movesOk; infer_instance

/-- The always-move-right one-state machine table. -/
def c10tbl : Table := [((0, 0), (1, 1, NState.st 0))]

/-- Where `c10tbl`'s machine stands after two applied steps. -/
def c10m : Machine :=
  match Machine.runSteps { transition := c10tbl } 2 with
  | .ok c => c
  | .error c => c

/-- The machine with the empty transition table. -/
def bb0 : Machine := { transition := [] }

/-- Where `bb0` stands after its first (failing) step. -/
def c5m : Machine :=
  match bb0.step with
  | .error c => c
  | .ok c => c

/-- The one-state machine that writes 1 and moves right forever. -/
def c3tbl : Table :=
  [((0, 0), (1, 1, NState.st 0)), ((0, 1), (1, 1, NState.st 0))]

/-- Its `Generator.run` result entry under `maxsteps = 107`. -/
def c3res : GenResult := outcomeOf 107 c3tbl

/-! ### Counting the enumeration (C1) -/

theorem length_listProd {α : Type} (A : List α) :
    ∀ k, (listProd A k).length = A.length ^ k
  | 0 => rfl
  | k+1 => by
      simp [listProd, List.length_flatMap, Function.comp_def,
        length_listProd A k, List.map_const', List.sum_replicate,
        smul_eq_mul, pow_succ, Nat.mul_comm]

theorem length_enum_instructions (n : Nat) :
    (enum_instructions n).length = 4 * (n + 1) := by
  simp [enum_instructions, List.length_flatMap, Function.comp_def,
    List.map_const', List.sum_replicate, smul_eq_mul]
  omega

theorem length_enum_transitions (n : Nat) :
    (enum_transitions n).length = binary_machines n := by
  simp [enum_transitions, length_listProd, length_enum_instructions,
    binary_machines]

/-! ### Tape movement lemmas (C4) -/

theorem setPos_fields (t : Tape) (v : Int) :
    (t.setPos v).position = v ∧
    (t.setPos v).shifts = t.shifts + (t.position - v).natAbs ∧
    (t.setPos v).leftmost = min t.leftmost v ∧
    (t.setPos v).rightmost = max t.rightmost v ∧
    (t.setPos v).data = t.data := by
  simp [Tape.setPos, Tape.updateExtremes]

theorem applyOp_position (t : Tape) (op : TapeOp) :
    (applyOp t op).position = opTarget t.position op := by
  cases op <;> simp [applyOp, opTarget, Tape.left, Tape.right,
    Tape.setPos, Tape.updateExtremes]

theorem applyOp_shifts (t : Tape) (op : TapeOp) :
    (applyOp t op).shifts =
      t.shifts + (opTarget t.position op - t.position).natAbs := by
  cases op <;>
    simp [applyOp, opTarget, Tape.left, Tape.right, Tape.setPos,
      Tape.updateExtremes] <;> omega

theorem applyOp_inv (t : Tape) (op : TapeOp) :
    (applyOp t op).leftmost ≤ (applyOp t op).position ∧
    (applyOp t op).position ≤ (applyOp t op).rightmost := by
  cases op <;>
    simp [applyOp, Tape.left, Tape.right, Tape.setPos, Tape.updateExtremes]

theorem foldOps_inv (ops : List TapeOp) (t : Tape)
    (h : t.leftmost ≤ t.position ∧ t.position ≤ t.rightmost) :
    (ops.foldl applyOp t).leftmost ≤ (ops.foldl applyOp t).position ∧
    (ops.foldl applyOp t).position ≤ (ops.foldl applyOp t).rightmost := by
  induction ops generalizing t with
  | nil => exact h
  | cons op rest ih => exact ih (applyOp t op) (applyOp_inv t op)

theorem foldOps_shifts (ops : List TapeOp) (t : Tape) :
    (ops.foldl applyOp t).shifts = t.shifts + sumDeltas t.position ops := by
  induction ops generalizing t with
  | nil => simp [sumDeltas]
  | cons op rest ih =>
      simp only [List.foldl_cons, sumDeltas]
      rw [ih (applyOp t op), applyOp_shifts, applyOp_position]
      omega

/-- C1: for every `n ≥ 0` the table enumerator produces exactly
`(4(n+1))^(2n)` transition tables — the value of `binary_machines n` —
so consuming it fully advances the 1-based ordinal index to that
count. -/
theorem enum_transitions_count (n : Nat) :
    (enum_transitions n).length = binary_machines n :=
  length_enum_transitions n

/-- C4: along every sequence of tape movement operations (left, right,
direct position assignment), `leftmost ≤ position ≤ rightmost` holds
after every operation, `shifts` equals the sum of the absolute
position deltas, and each single-step move adds exactly 1 while a
direct assignment adds exactly `|new - old|`. -/
theorem tape_invariant_shifts :
    (∀ (p : Int) (ops : List TapeOp),
        (ops.foldl applyOp (Tape.init p)).leftmost ≤
            (ops.foldl applyOp (Tape.init p)).position ∧
        (ops.foldl applyOp (Tape.init p)).position ≤
            (ops.foldl applyOp (Tape.init p)).rightmost ∧
        (ops.foldl applyOp (Tape.init p)).shifts = sumDeltas p ops) ∧
    (∀ t : Tape,
        t.left.shifts = t.shifts + 1 ∧ t.right.shifts = t.shifts + 1 ∧
        ∀ v, (t.setPos v).shifts = t.shifts + (v - t.position).natAbs) := by
  constructor
  · intro p ops
    have hinv := foldOps_inv ops (Tape.init p)
      (by simp [Tape.init])
    have hsh := foldOps_shifts ops (Tape.init p)
    simp [Tape.init] at hsh
    exact ⟨hinv.1, hinv.2, hsh⟩
  · intro t
    refine ⟨?_, ?_, fun v => ?_⟩
    · simp [Tape.left, Tape.setPos, Tape.updateExtremes]
    · simp [Tape.right, Tape.setPos, Tape.updateExtremes]
    · simp [Tape.setPos, Tape.updateExtremes]; omega

/-- C9: the machine whose only instruction maps (state 0, symbol 0) to
(write 1, move right, next HALT), started in state 0 on a blank tape,
applies one step successfully, halts at the second step attempt, and
ends with `ones() = 1`. -/
theorem single_halt_instruction_machine :
    runOk bb9 1 = true ∧ bb9.runSteps 2 = .error bb9final ∧
    bb9final.ones = 1 ∧ bb9final.tape.shifts = 1 := by
  refine ⟨?_, ?_, ?_, ?_⟩ <;> rfl

/-! ### Applied steps and the shift counter (C10) -/

theorem alookup_mem {κ α : Type} [DecidableEq κ] {k : κ} {v : α} :
    ∀ {l : List (κ × α)}, alookup k l = some v → (k, v) ∈ l
  | [], h => by simp [alookup] at h
  | (k', v') :: rest, h => by
      by_cases hk : k = k'
      · subst hk
        simp [alookup] at h
        simp [h]
      · simp only [alookup, if_neg hk] at h
        exact List.mem_cons_of_mem _ (alookup_mem h)

theorem mem_listProd {α : Type} {A : List α} :
    ∀ {k : Nat} {l : List α}, l ∈ listProd A k →
      l.length = k ∧ ∀ x ∈ l, x ∈ A
  | 0, l, h => by
      simp [listProd] at h
      simp [h]
  | k+1, l, h => by
      obtain ⟨a, ha, l', hl', rfl⟩ := by
        simpa [listProd] using h
      obtain ⟨hlen, hall⟩ := mem_listProd hl'
      refine ⟨by simp [hlen], ?_⟩
      intro x hx
      rcases List.mem_cons.mp hx with rfl | hx
      · exact ha
      · exact hall x hx

theorem mem_enum_instructions_move {n : Nat} {i : Instr}
    (h : i ∈ enum_instructions n) : i.2.1 = -1 ∨ i.2.1 = 1 := by
  simp only [enum_instructions, List.mem_flatMap, List.mem_map] at h
  obtain ⟨st, -, sym, -, mv, hmv, rfl⟩ := h
  simp only [List.mem_cons, List.mem_singleton] at hmv
  rcases hmv with rfl | rfl | hmv
  · simp
  · simp
  · simp at hmv

theorem movesOk_enum (n : Nat) :
    ∀ tbl ∈ enum_transitions n, movesOk tbl := by
  intro tbl htbl e he
  simp only [enum_transitions, List.mem_map] at htbl
  obtain ⟨il, hil, rfl⟩ := htbl
  obtain ⟨hlen, hall⟩ := mem_listProd hil
  simp only [buildTable] at he
  split at he
  · simp only [List.mem_map, List.mem_range] at he
    obtain ⟨j, hj, rfl⟩ := he
    have hj' : j < il.length := by omega
    have hmem : il.getD j (0, 1, .Z) ∈ il := by
      rw [List.getD_eq_getElem?_getD, List.getElem?_eq_getElem hj']
      exact List.getElem_mem hj'
    have hmv := mem_enum_instructions_move (hall _ hmem)
    rcases hmv with h | h <;> rw [List.getD_eq_getElem?_getD] at h <;> simp [h]
  · simp at he

theorem read_keeps_fields (t : Tape) :
    (t.read).2.shifts = t.shifts ∧ (t.read).2.position = t.position ∧
    (t.read).2.leftmost = t.leftmost ∧ (t.read).2.rightmost = t.rightmost := by
  unfold Tape.read
  cases alookup t.position t.data <;> simp

theorem step_ok_shifts {m m' : Machine} (hmov : movesOk m.transition)
    (h : m.step = .ok m') :
    m'.tape.shifts = m.tape.shifts + 1 ∧ m'.transition = m.transition := by
  simp only [Machine.step] at h
  split at h
  · exact absurd h (by simp)
  · rename_i sym mv st hl
    cases h
    have hread := read_keeps_fields m.tape
    have hmem : ((sym, mv, st) : Instr) ∈ m.transition.map Prod.snd := by
      cases hst : m.state with
      | Z => simp [lookupTrans, hst] at hl
      | st k =>
          rw [hst] at hl
          simp only [lookupTrans] at hl
          exact List.mem_map_of_mem _ (alookup_mem hl)
    have hmv : mv = 1 ∨ mv = -1 := by
      simp only [List.mem_map] at hmem
      obtain ⟨e, he, hee⟩ := hmem
      have := hmov e he
      rw [hee] at this
      exact this
    refine ⟨?_, rfl⟩
    simp only [Tape.write, Tape.setPos, Tape.updateExtremes]
    rcases hmv with rfl | rfl <;> simp [hread.1, hread.2.1]

theorem runSteps_ok_shifts {m m' : Machine} {k : Nat}
    (hmov : movesOk m.transition) (h : m.runSteps k = .ok m') :
    m'.tape.shifts = m.tape.shifts + k := by
  induction k generalizing m with
  | zero =>
      simp only [Machine.runSteps] at h
      cases h
      rfl
  | succ k ih =>
      simp only [Machine.runSteps] at h
      cases hs : m.step with
      | error e => rw [hs] at h; exact absurd h (by simp)
      | ok m₁ =>
          rw [hs] at h
          obtain ⟨h1, htr⟩ := step_ok_shifts hmov hs
          have := ih (m := m₁) (by rw [htr]; exact hmov) h
          omega

/-- C10: every instruction produced by the enumerator moves the head by
exactly one cell, and for any machine over such a table, `k`
successfully applied steps from a fresh blank tape leave
`shifts = k`. -/
theorem shifts_counts_applied_steps :
    (∀ n, ∀ tbl ∈ enum_transitions n, movesOk tbl) ∧
    (∀ (tbl : Table) (k : Nat) (m' : Machine), movesOk tbl →
      Machine.runSteps { transition := tbl } k = .ok m' →
      m'.tape.shifts = k) := by
  refine ⟨movesOk_enum, fun tbl k m' hmov h => ?_⟩
  have := runSteps_ok_shifts hmov h
  simpa [Tape.init] using this

/-- Witness for C10 at the concrete table `c10tbl` and `k = 2`. -/
theorem shifts_counts_applied_steps_witness :
    movesOk c10tbl ∧ c10m.tape.shifts = 2 := by
  have hmov : movesOk c10tbl := by decide
  have hrun : Machine.runSteps { transition := c10tbl } 2 = .ok c10m := rfl
  exact ⟨hmov, shifts_counts_applied_steps.2 c10tbl 2 c10m hmov hrun⟩

/-! ### Reads materialise cells; failed steps (C5, C8) -/

theorem alookup_append {κ α : Type} [DecidableEq κ] (k : κ) :
    ∀ (a b : List (κ × α)),
      alookup k (a ++ b) =
        match alookup k a with
        | some v => some v
        | none => alookup k b
  | [], b => rfl
  | (k', v') :: rest, b => by
      by_cases hk : k = k' <;>
        simp [alookup, hk, alookup_append k rest b]

theorem getD_alookup_append_default {p : Int} {d : List (Int × Nat)}
    (i : Int) :
    (alookup i (d ++ [(p, zero)])).getD zero = (alookup i d).getD zero := by
  rw [alookup_append]
  cases hx : alookup i d with
  | some v => rfl
  | none =>
      by_cases hip : i = p <;> simp [alookup, hip, zero]

/-- C5 (amended): when `step` finds no transition, the machine's state,
transition table, `halts` flag, head position, extremes, shift counter
and every cell *value* are unchanged — but the read performed before
the failed lookup materialises the default at the current position, so
the stored-cell list may gain the entry `(position, 0)`. -/
theorem step_error_frame (m m' : Machine) (h : m.step = .error m') :
    m'.state = m.state ∧ m'.transition = m.transition ∧
    m'.halts = m.halts ∧
    m'.tape.position = m.tape.position ∧
    m'.tape.leftmost = m.tape.leftmost ∧
    m'.tape.rightmost = m.tape.rightmost ∧
    m'.tape.shifts = m.tape.shifts ∧
    (∀ i : Int, (alookup i m'.tape.data).getD zero =
        (alookup i m.tape.data).getD zero) ∧
    (m'.tape.data = m.tape.data ∨
      m'.tape.data = m.tape.data ++ [(m.tape.position, zero)]) := by
  simp only [Machine.step] at h
  split at h
  · injection h with h2
    subst h2
    unfold Tape.read
    cases hx : alookup m.tape.position m.tape.data with
    | some v => simp
    | none =>
        exact ⟨rfl, rfl, rfl, rfl, rfl, rfl, rfl,
          fun i => getD_alookup_append_default i, Or.inr rfl⟩
  · exact absurd h (by simp)

/-- Witness for C5's amended theorem at the empty-table machine. -/
theorem step_error_frame_witness :
    bb0.step = .error c5m ∧ c5m.state = bb0.state :=
  ⟨rfl, (step_error_frame bb0 c5m rfl).1⟩

/-- Counterexample to C5 as stated: the failing step of the empty-table
machine does change the tape under the code's own tape equality
(`Tape.__eq__`), because the read materialises cell 0. -/
theorem step_error_tape_changed :
    bb0.step = .error c5m ∧ ¬ Tape.eqv bb0.tape c5m.tape :=
  ⟨rfl, by decide⟩

/-- C8 (amended): reading a cell returns its stored value (unchanged
tape) when present; reading an unvisited cell returns the default 0
but *materialises* it — the stored-cell list grows by
`(position, 0)` while every cell value is unchanged. -/
theorem read_default_materialises (t : Tape) :
    (∀ v, alookup t.position t.data = some v → t.read = (v, t)) ∧
    (alookup t.position t.data = none →
      t.read = (zero, { t with data := t.data ++ [(t.position, zero)] }) ∧
      (t.read).1 = zero ∧
      ∀ i : Int, (alookup i (t.read).2.data).getD zero =
          (alookup i t.data).getD zero) := by
  constructor
  · intro v hv
    unfold Tape.read
    rw [hv]
  · intro hv
    unfold Tape.read
    rw [hv]
    exact ⟨rfl, rfl, fun i => getD_alookup_append_default i⟩

/-- Witness for C8's amended theorem at the fresh blank tape. -/
theorem read_default_materialises_witness :
    alookup (Tape.init 0).position (Tape.init 0).data = none ∧
    ((Tape.init 0).read).1 = zero :=
  ⟨rfl, ((read_default_materialises (Tape.init 0)).2 rfl).2.1⟩

/-- Counterexample to C8 as stated: reading the unvisited cell 0 of a
fresh tape does not leave the set of stored cells unchanged. -/
theorem read_default_materialises_cex :
    ((Tape.init 0).read).2.data ≠ (Tape.init 0).data := by
  decide

/-! ### The actual enumeration order (C6) -/

/-- Counterexample to C6 as stated: already for `n = 1`, the second
table produced by `enum_transitions` differs from the second table of
the spec-claimed order (symbol outermost, move middle, next-state
innermost, HALT adjacent to state 0). -/
theorem enum_order_differs_from_spec_order :
    (enum_transitions 1)[1]? ≠ (specEnumTransitions 1)[1]? := by
  decide

theorem enum_instructions_closed_form :
    ∀ n, enum_instructions n = (List.range (4 * (n + 1))).map (fun i =>
      (i % 4 / 2, if i % 2 = 0 then (-1 : Int) else 1,
       if i / 4 < n then NState.st (n - 1 - i / 4) else NState.Z))
  | 0 => by decide
  | n+1 => by
      have hrev : (NState.Z :: (List.range (n + 1)).map NState.st).reverse
          = NState.st n :: (NState.Z :: (List.range n).map NState.st).reverse := by
        simp [List.range_succ]
      have hsplit : enum_instructions (n + 1)
          = [((0 : Nat), (-1 : Int), NState.st n), (0, 1, NState.st n),
             (1, -1, NState.st n), (1, 1, NState.st n)] ++ enum_instructions n := by
        unfold enum_instructions
        rw [hrev, List.flatMap_cons]
        rfl
      rw [hsplit, enum_instructions_closed_form n]
      have h4 : 4 * (n + 1 + 1) = 4 + 4 * (n + 1) := by ring
      rw [h4, List.range_add, List.map_append, List.map_map]
      congr 1
      · rw [show List.range 4 = [0, 1, 2, 3] from rfl]
        simp
      · apply List.map_congr_left
        intro i _
        have h1 : (4 + i) % 4 = i % 4 := by omega
        have h2 : (4 + i) % 2 = i % 2 := by omega
        have h3 : (4 + i) / 4 = i / 4 + 1 := by omega
        have h5 : (if i / 4 + 1 < n + 1 then NState.st (n + 1 - 1 - (i / 4 + 1))
              else NState.Z)
            = (if i / 4 < n then NState.st (n - 1 - i / 4) else NState.Z) := by
          by_cases h : i / 4 < n
          · rw [if_pos (by omega), if_pos h]
            exact congrArg NState.st (by omega)
          · rw [if_neg (by omega), if_neg h]
        simp only [Function.comp_apply, h1, h2, h3, h5]

/-- C6 (amended): `enum_transitions n` is the lexicographic Cartesian
product over the `2n` slots of the fixed per-slot ordering
`enum_instructions n`, whose closed form shows the actual nesting:
next-state outermost (states descending from `n-1` to `0`, then HALT,
so HALT is adjacent to state 0 but last), symbol in the middle, and
move direction innermost; the order is deterministic. -/
theorem enum_order_characterisation (n : Nat) :
    enum_transitions n =
      (listProd (enum_instructions n) (2 * n)).map (buildTable n) ∧
    enum_instructions n = (List.range (4 * (n + 1))).map (fun i =>
      (i % 4 / 2, if i % 2 = 0 then (-1 : Int) else 1,
       if i / 4 < n then NState.st (n - 1 - i / 4) else NState.Z)) :=
  ⟨rfl, enum_instructions_closed_form n⟩

/-! ### Evaluating `popcount` (fuel invariance) -/

theorem popcountGo_zero : ∀ f, popcountGo f 0 = 0
  | 0 => rfl
  | _+1 => by simp [popcountGo]

theorem popcountGo_congr (n : Nat) :
    ∀ (f g : Nat), n < 2 ^ f → n < 2 ^ g →
      popcountGo f n = popcountGo g n := by
  induction n using Nat.strong_induction_on with
  | _ n ih =>
      intro f g hf hg
      rcases Nat.eq_zero_or_pos n with rfl | hn
      · rw [popcountGo_zero, popcountGo_zero]
      · match f, g with
        | 0, _ => simp at hf; omega
        | _, 0 => simp at hg; omega
        | f+1, g+1 =>
            have h2f : 2 ^ (f + 1) = 2 * 2 ^ f := by ring
            have h2g : 2 ^ (g + 1) = 2 * 2 ^ g := by ring
            rw [h2f] at hf
            rw [h2g] at hg
            simp only [popcountGo, if_neg (by omega : ¬ n = 0)]
            have := ih (n / 2) (by omega) f g (by omega) (by omega)
            omega

theorem popcount_eval (n f : Nat) (h : n < 2 ^ f) :
    popcount n = popcountGo f n :=
  popcountGo_congr n n f (Nat.lt_two_pow n) h

/-! ### `Generator.champion` counts non-halting results (C3) -/

/-- C3 (code bug): `Generator.champion` maximises `popcount` over every
entry of `results` without consulting the stored `halts` flag, so a
candidate classified as non-halting still contributes: the candidate
`c3tbl` does not halt within the budget, yet a results list containing
only it yields champion score 108 instead of 0. -/
theorem champion_counts_nonhalting :
    c3res.1 = false ∧ championOf [c3res] = 108 := by
  have hc : c3res = (false, 108, 2 ^ 108 - 1) := by decide!
  refine ⟨by rw [hc], ?_⟩
  rw [hc]
  show max 0 (popcount (2 ^ 108 - 1)) = 108
  rw [popcount_eval (2 ^ 108 - 1) 108 (by omega)]
  have : popcountGo 108 (2 ^ 108 - 1) = 108 := by decide!
  omega

/-! ### Resuming from a saved ordinal index (C7) -/

theorem genLoop_spec (out : Table → GenResult) :
    ∀ (ts : List Table) (no : Nat) (res : List GenResult),
      genLoop out ts no res = res ++ (ts.drop (res.length - no)).map out
  | [], no, res => by simp [genLoop]
  | t :: ts, no, res => by
      unfold genLoop
      by_cases h : no < res.length
      · rw [if_pos h, genLoop_spec out ts (no + 1) res]
        have hd : res.length - no = (res.length - (no + 1)) + 1 := by omega
        rw [hd, List.drop_succ_cons]
      · rw [if_neg h, genLoop_spec out ts (no + 1) (res ++ [out t])]
        have h0 : res.length - no = 0 := by omega
        have h1 : (res ++ [out t]).length - (no + 1) = 0 := by
          simp
          omega
        rw [h0, h1]
        simp

theorem foldl_max_init {α : Type} (f : α → Nat) :
    ∀ (l : List α) (a : Nat),
      l.foldl (fun b x => max b (f x)) a =
        max a (l.foldl (fun b x => max b (f x)) 0)
  | [], a => by simp
  | x :: l, a => by
      simp only [List.foldl_cons]
      rw [foldl_max_init f l (max a (f x)), foldl_max_init f l (max 0 (f x))]
      simp [Nat.max_assoc]

theorem championOf_append (A B : List GenResult) :
    championOf (A ++ B) = max (championOf A) (championOf B) := by
  unfold championOf
  rw [List.foldl_append]
  exact foldl_max_init _ B _

theorem championOf_cons (r : GenResult) (l : List GenResult) :
    championOf (r :: l) = max (popcount r.2.2) (championOf l) := by
  unfold championOf
  simp only [List.foldl_cons]
  rw [foldl_max_init _ l]
  simp

theorem championOf_resume (out : Table → GenResult) (T : List Table) :
    ∀ k, k ≤ T.length →
      championOf ((T.take k).map out ++ (T.drop (k - 1)).map out) =
        championOf (T.map out)
  | 0, _ => by simp
  | j+1, hk => by
      have hj : j < T.length := by omega
      have hsplit : T.map out =
          ((T.take (j + 1)).map out) ++ ((T.drop (j + 1)).map out) := by
        rw [← List.map_append, List.take_append_drop]
      rw [show j + 1 - 1 = j from rfl, List.drop_eq_getElem_cons hj,
        List.take_succ, List.getElem?_eq_getElem hj]
      rw [hsplit, List.take_succ, List.getElem?_eq_getElem hj]
      simp only [Option.toList_some, List.map_append, List.map_cons,
        List.map_nil]
      have championOf_nil : championOf ([] : List GenResult) = 0 := rfl
      simp only [championOf_append, championOf_cons, championOf_nil,
        Nat.max_zero]
      generalize championOf (List.map out (List.take j T)) = a
      generalize popcount (out T[j]).2.2 = b
      generalize championOf (List.map out (List.drop (j + 1) T)) = c
      omega

/-- C7: resuming `Generator.run` from `k` saved per-candidate results
(the first `k` entries of a full run, i.e. a saved ordinal index `k`)
produces the same champion as an uninterrupted run, for every
`k ≤ binary_machines states`. -/
theorem resume_reaches_same_champion (states maxsteps k : Nat)
    (hk : k ≤ binary_machines states) :
    championOf (generatorRun states maxsteps
        ((fullResults states maxsteps).take k)) =
      championOf (generatorRun states maxsteps []) := by
  unfold generatorRun fullResults
  have hT : (enum_transitions states).length = binary_machines states :=
    length_enum_transitions states
  have hk' : k ≤ (enum_transitions states).length := by omega
  have hlen : ((enum_transitions states).take k).length = k := by
    rw [List.length_take]
    omega
  rw [genLoop_spec, genLoop_spec, ← List.map_take]
  simp only [List.length_map, List.length_nil, List.nil_append,
    Nat.zero_sub, List.drop_zero, hlen]
  exact championOf_resume (outcomeOf maxsteps) (enum_transitions states) k hk'

/-- Witness for C7 at `states = 0`, `maxsteps = 107`, `k = 1`. -/
theorem resume_reaches_same_champion_witness :
    1 ≤ binary_machines 0 ∧
    championOf (generatorRun 0 107 ((fullResults 0 107).take 1)) =
      championOf (generatorRun 0 107 []) :=
  ⟨by decide, resume_reaches_same_champion 0 107 1 (by decide)⟩

/-! ### Tape data lemmas for the interpreter simulation (C2) -/

theorem alookup_eq_none_iff {κ α : Type} [DecidableEq κ] (k : κ) :
    ∀ (d : List (κ × α)), alookup k d = none ↔ k ∉ d.map Prod.fst
  | [] => by simp [alookup]
  | (k', v') :: rest => by
      by_cases hk : k = k' <;>
        simp [alookup, hk, alookup_eq_none_iff k rest]

theorem tval_le_one {d : List (Int × Nat)} (h : cells01 d) (i : Int) :
    tval d i ≤ 1 := by
  unfold tval
  cases hx : alookup i d with
  | none => simp [zero]
  | some v => exact h (i, v) (alookup_mem hx)

theorem tval_le_sumVals (d : List (Int × Nat)) (i : Int) :
    tval d i ≤ sumVals d := by
  unfold tval
  cases hx : alookup i d with
  | none => simp [zero]
  | some v =>
      have hm : v ∈ d.map Prod.snd :=
        List.mem_map_of_mem Prod.snd (alookup_mem hx)
      exact List.single_le_sum (fun x _ => Nat.zero_le x) v hm

theorem read_fst (t : Tape) : (t.read).1 = tval t.data t.position := by
  unfold Tape.read tval
  cases alookup t.position t.data <;> simp

theorem read_tval (t : Tape) (i : Int) :
    tval (t.read).2.data i = tval t.data i := by
  unfold Tape.read
  cases hx : alookup t.position t.data with
  | some v => rfl
  | none => exact getD_alookup_append_default i

theorem read_lookup_self (t : Tape) :
    alookup t.position (t.read).2.data = some ((t.read).1) := by
  unfold Tape.read
  cases hx : alookup t.position t.data with
  | some v => exact hx
  | none =>
      simp only []
      rw [alookup_append, hx]
      simp [alookup]

theorem read_sumVals (t : Tape) : sumVals (t.read).2.data = sumVals t.data := by
  unfold Tape.read
  cases hx : alookup t.position t.data with
  | some v => rfl
  | none => simp [sumVals, zero]

theorem read_cells01 {t : Tape} (h : cells01 t.data) :
    cells01 (t.read).2.data := by
  unfold Tape.read
  cases hx : alookup t.position t.data with
  | some v => exact h
  | none =>
      intro p hp
      rcases List.mem_append.mp hp with hp | hp
      · exact h p hp
      · simp at hp
        simp [hp, zero]

theorem read_keysND {t : Tape} (h : keysND t.data) :
    keysND (t.read).2.data := by
  unfold Tape.read
  cases hx : alookup t.position t.data with
  | some v => exact h
  | none =>
      unfold keysND at h ⊢
      simp only [List.map_append, List.map_cons, List.map_nil]
      rw [List.nodup_append]
      refine ⟨h, List.nodup_singleton _, ?_⟩
      intro a ha hb
      simp at hb
      subst hb
      exact (alookup_eq_none_iff _ _).mp hx ha

theorem alookup_dinsert {κ α : Type} [DecidableEq κ] (k : κ) (v : α) :
    ∀ (d : List (κ × α)) (i : κ),
      alookup i (dinsert k v d) = if i = k then some v else alookup i d
  | [], i => by
      by_cases hik : i = k <;> simp [dinsert, alookup, hik]
  | (k', v') :: rest, i => by
      by_cases hk : k = k'
      · subst hk
        by_cases hik : i = k <;> simp [dinsert, alookup, hik]
      · have hrec := alookup_dinsert k v rest i
        by_cases hik : i = k'
        · subst hik
          have hik2 : ¬ i = k := fun h => hk h.symm
          simp [dinsert, hk, alookup, hik2]
        · simp [dinsert, hk, alookup, hik, hrec]

theorem sumVals_dinsert_present (k : Int) (v : Nat) :
    ∀ (d : List (Int × Nat)) (w : Nat), alookup k d = some w →
      sumVals (dinsert k v d) + w = sumVals d + v
  | [], w, h => by simp [alookup] at h
  | (k', v') :: rest, w, h => by
      by_cases hk : k = k'
      · subst hk
        simp [alookup] at h
        subst h
        simp [dinsert, sumVals]
        omega
      · simp only [alookup, if_neg hk] at h
        have := sumVals_dinsert_present k v rest w h
        simp only [dinsert, if_neg hk, sumVals, List.map_cons, List.sum_cons]
        simp only [sumVals] at this
        omega

theorem mem_dinsert {κ α : Type} [DecidableEq κ] {k : κ} {v : α} :
    ∀ {d : List (κ × α)} {p : κ × α}, p ∈ dinsert k v d → p = (k, v) ∨ p ∈ d
  | [], p, h => by
      simp [dinsert] at h
      exact Or.inl h
  | (k', v') :: rest, p, h => by
      by_cases hk : k = k'
      · subst hk
        rw [dinsert, if_pos rfl] at h
        rcases List.mem_cons.mp h with rfl | h
        · exact Or.inl rfl
        · exact Or.inr (List.mem_cons_of_mem _ h)
      · rw [dinsert, if_neg hk] at h
        rcases List.mem_cons.mp h with rfl | h
        · exact Or.inr (List.mem_cons_self _ _)
        · rcases mem_dinsert h with h | h
          · exact Or.inl h
          · exact Or.inr (List.mem_cons_of_mem _ h)

theorem cells01_dinsert {k : Int} {v : Nat} {d : List (Int × Nat)}
    (h : cells01 d) (hv : v ≤ 1) : cells01 (dinsert k v d) := by
  intro p hp
  rcases mem_dinsert hp with rfl | hp
  · exact hv
  · exact h p hp

theorem keys_dinsert {κ α : Type} [DecidableEq κ] (k : κ) (v : α) :
    ∀ (d : List (κ × α)),
      (dinsert k v d).map Prod.fst =
        if k ∈ d.map Prod.fst then d.map Prod.fst
        else d.map Prod.fst ++ [k]
  | [] => by simp [dinsert]
  | (k', v') :: rest => by
      by_cases hk : k = k'
      · subst hk
        simp [dinsert]
      · rw [dinsert, if_neg hk]
        simp only [List.map_cons]
        rw [keys_dinsert k v rest]
        by_cases hm : k ∈ rest.map Prod.fst
        · rw [if_pos hm, if_pos (by simp [hm])]
        · rw [if_neg hm, if_neg (by simp [hk, hm])]
          simp

theorem keysND_dinsert {k : Int} {v : Nat} {d : List (Int × Nat)}
    (h : keysND d) : keysND (dinsert k v d) := by
  unfold keysND at h ⊢
  rw [keys_dinsert]
  by_cases hm : k ∈ d.map Prod.fst
  · rwa [if_pos hm]
  · rw [if_neg hm, List.nodup_append]
    refine ⟨h, List.nodup_singleton _, ?_⟩
    intro a ha hb
    simp at hb
    subst hb
    exact hm ha

theorem nbit_zero (k : Nat) : nbit 0 k = 0 := by
  simp [nbit]

theorem nbit_base {a w : Nat} (hw : w ≤ 1) : nbit (2 * a + w) 0 = w := by
  unfold nbit
  simp
  omega

theorem nbit_shift {a w : Nat} (hw : w ≤ 1) (k : Nat) :
    nbit (2 * a + w) (k + 1) = nbit a k := by
  unfold nbit
  have h1 : (2 * a + w) / 2 ^ (k + 1) = (2 * a + w) / 2 / 2 ^ k := by
    rw [Nat.div_div_eq_div_mul]
    ring_nf
  have h2 : (2 * a + w) / 2 = a := by omega
  rw [h1, h2]

theorem nbit_div2 (x k : Nat) : nbit (x / 2) k = nbit x (k + 1) := by
  unfold nbit
  rw [Nat.div_div_eq_div_mul]
  ring_nf

theorem nbit_mod2 (x : Nat) : nbit x 0 = x % 2 := by
  simp [nbit]

theorem map_alookup_keys :
    ∀ (d : List (Int × Nat)), keysND d →
      (d.map Prod.fst).map (fun k => (alookup k d).getD zero) =
        d.map Prod.snd
  | [], _ => rfl
  | (k, v) :: rest, h => by
      unfold keysND at h
      simp only [List.map_cons, List.nodup_cons] at h
      obtain ⟨hk, hnd⟩ := h
      simp only [List.map_cons, alookup, if_pos rfl, Option.getD_some]
      congr 1
      have hcongr : ∀ k' ∈ rest.map Prod.fst,
          ((if k' = k then some v else alookup k' rest)).getD zero =
            (alookup k' rest).getD zero := by
        intro k' hk'
        have hne : ¬ k' = k := fun h => hk (by rwa [h] at hk')
        rw [if_neg hne]
      calc (rest.map Prod.fst).map
            (fun k' => (if k' = k then some v else alookup k' rest).getD zero)
          = (rest.map Prod.fst).map (fun k' => (alookup k' rest).getD zero) :=
            List.map_congr_left hcongr
        _ = rest.map Prod.snd := map_alookup_keys rest hnd

theorem ones_eq_sumVals {m : Machine} (h : keysND m.tape.data) :
    m.ones = sumVals m.tape.data := by
  unfold Machine.ones Tape.values Tape.sortedKeys
  have hperm : List.Perm
      (List.insertionSort (· ≤ ·) (m.tape.data.map Prod.fst))
      (m.tape.data.map Prod.fst) :=
    List.perm_insertionSort _ _
  have hmap := hperm.map (fun k => (alookup k m.tape.data).getD zero)
  rw [hmap.sum_eq, map_alookup_keys m.tape.data h]
  rfl

/-! ### Instruction codes and the radix-encoded table (C2) -/

theorem icode_lt {n : Nat} {i : FInstr} (h1 : i.1 ≤ 1) (h2 : i.2.2 ≤ n) :
    icode i < 4 * (n + 1) := by
  obtain ⟨w, mv, nxt⟩ := i
  simp only [icode] at *
  cases mv <;> simp only [cond] <;> omega

theorem icode_mod2 {i : FInstr} (h1 : i.1 ≤ 1) : icode i % 2 = i.1 := by
  obtain ⟨w, mv, nxt⟩ := i
  simp only [icode] at *
  cases mv <;> simp only [cond] <;> omega

theorem icode_div2_mod2 {i : FInstr} (h1 : i.1 ≤ 1) :
    icode i / 2 % 2 = cond i.2.1 1 0 := by
  obtain ⟨w, mv, nxt⟩ := i
  simp only [icode] at *
  cases mv <;> simp only [cond] <;> omega

theorem icode_div4 {i : FInstr} (h1 : i.1 ≤ 1) : icode i / 4 = i.2.2 := by
  obtain ⟨w, mv, nxt⟩ := i
  simp only [icode] at *
  cases mv <;> simp only [cond] <;> omega

theorem encode_digit {B : Nat} :
    ∀ (ftbl : List FInstr), (∀ i ∈ ftbl, icode i < B) →
      ∀ j, j < ftbl.length →
        encodeTable B ftbl / B ^ j % B = icode (ftbl.getD j (0, true, 0))
  | [], _, j, hj => by simp at hj
  | i :: rest, hB, j, hj => by
      have hi : icode i < B := hB i (List.mem_cons_self _ _)
      have hBpos : 0 < B := by omega
      cases j with
      | zero =>
          simp only [encodeTable, List.foldr_cons, pow_zero, Nat.div_one,
            List.getD_cons_zero]
          rw [Nat.add_mul_mod_self_left, Nat.mod_eq_of_lt hi]
      | succ j =>
          have hrec := encode_digit rest
            (fun x hx => hB x (List.mem_cons_of_mem _ hx)) j
            (by simpa using hj)
          have hdiv : encodeTable B (i :: rest) / B ^ (j + 1) =
              encodeTable B rest / B ^ j := by
            show (icode i + B * encodeTable B rest) / B ^ (j + 1) =
              encodeTable B rest / B ^ j
            rw [pow_succ', ← Nat.div_div_eq_div_mul,
              Nat.add_mul_div_left _ _ hBpos, Nat.div_eq_of_lt hi]
            simp
          rw [hdiv, hrec, List.getD_cons_succ]

theorem alookup_range_map (f : Nat → Instr) :
    ∀ (len s sym : Nat),
      alookup (s, sym)
          ((List.range len).map fun j => ((j / 2, j % 2), f j)) =
        if 2 * s + sym < len ∧ sym < 2 then some (f (2 * s + sym))
        else none
  | 0, s, sym => by simp [alookup]
  | len+1, s, sym => by
      rw [List.range_succ, List.map_append, alookup_append,
        alookup_range_map f len s sym]
      by_cases h1 : 2 * s + sym < len ∧ sym < 2
      · rw [if_pos h1, if_pos ⟨by omega, h1.2⟩]
      · rw [if_neg h1]
        simp only [List.map_cons, List.map_nil, alookup]
        by_cases hkey : (s, sym) = (len / 2, len % 2)
        · rw [if_pos hkey]
          obtain ⟨hs, hsym⟩ := Prod.mk.injEq .. ▸ hkey
          have he : 2 * s + sym = len := by omega
          rw [if_pos ⟨by omega, by omega⟩, he]
        · rw [if_neg hkey]
          have : ¬ (2 * s + sym < len + 1 ∧ sym < 2) := by
            intro ⟨ha, hb⟩
            have he : 2 * s + sym = len := by omega
            exact hkey (by rw [Prod.mk.injEq]; omega)
          rw [if_neg this]

theorem alookup_buildTable {n : Nat} {L : List Instr}
    (hn : 0 < n) (hlen : L.length = 2 * n) (s sym : Nat) :
    alookup (s, sym) (buildTable n L) =
      if 2 * s + sym < 2 * n ∧ sym < 2 then some (L.getD (2 * s + sym) (0, 1, .Z))
      else none := by
  unfold buildTable
  rw [if_pos (by omega)]
  exact alookup_range_map (fun j => L.getD j (0, 1, .Z)) (2 * n) s sym

theorem mem_fastInstructions {n : Nat} {i : FInstr}
    (h : i ∈ fastInstructions n) : i.1 ≤ 1 ∧ i.2.2 ≤ n := by
  simp only [fastInstructions, List.mem_flatMap, List.mem_map,
    List.mem_append, List.mem_reverse, List.mem_range,
    List.mem_cons, List.mem_singleton] at h
  obtain ⟨st, hst, sym, hsym, mv, -, rfl⟩ := h
  constructor
  · rcases hsym with rfl | rfl | h
    · exact Nat.zero_le 1
    · exact le_refl 1
    · simp at h
  · rcases hst with hst | hst
    · show st ≤ n
      omega
    · simp at hst
      show st ≤ n
      omega

theorem getD_map_instrOf {n : Nat} (fl : List FInstr) {j : Nat}
    (hj : j < fl.length) :
    (fl.map (instrOf n)).getD j (0, 1, .Z) =
      instrOf n (fl.getD j (0, true, 0)) := by
  rw [List.getD_eq_getElem?_getD, List.getD_eq_getElem?_getD,
    List.getElem?_map, List.getElem?_eq_getElem hj]
  rfl

theorem tval_dinsert (k : Int) (v : Nat) (d : List (Int × Nat)) (i : Int) :
    tval (dinsert k v d) i = if i = k then v else tval d i := by
  unfold tval
  rw [alookup_dinsert]
  split
  · rfl
  · rfl

theorem stepTape_data (t : Tape) (w : Nat) (mv : Int) :
    (((t.read).2.write w).setPos (((t.read).2.write w).position + mv)).position
        = t.position + mv ∧
    (((t.read).2.write w).setPos (((t.read).2.write w).position + mv)).data
        = dinsert t.position w (t.read).2.data := by
  have hp := (read_keeps_fields t).2.1
  constructor
  · rw [(setPos_fields _ _).1]
    show ((t.read).2.write w).position + mv = _
    simp [Tape.write, hp]
  · rw [(setPos_fields _ _).2.2.2.2]
    show dinsert ((t.read).2.position) w (t.read).2.data = _
    rw [hp]

theorem stepTape_tval_at (t : Tape) (w : Nat) (mv : Int) :
    tval ((((t.read).2.write w).setPos
        (((t.read).2.write w).position + mv)).data) t.position = w := by
  rw [(stepTape_data t w mv).2, tval_dinsert, if_pos rfl]

theorem stepTape_tval_ne (t : Tape) (w : Nat) (mv : Int) {i : Int}
    (hne : i ≠ t.position) :
    tval ((((t.read).2.write w).setPos
        (((t.read).2.write w).position + mv)).data) i = tval t.data i := by
  rw [(stepTape_data t w mv).2, tval_dinsert, if_neg hne]
  exact read_tval t i

theorem stepTape_inv (t : Tape) (w : Nat) (mv : Int) (hw : w ≤ 1)
    (hc01 : cells01 t.data) (hnd : keysND t.data) :
    sumVals ((((t.read).2.write w).setPos
        (((t.read).2.write w).position + mv)).data) + tval t.data t.position
      = sumVals t.data + w ∧
    cells01 ((((t.read).2.write w).setPos
        (((t.read).2.write w).position + mv)).data) ∧
    keysND ((((t.read).2.write w).setPos
        (((t.read).2.write w).position + mv)).data) := by
  rw [(stepTape_data t w mv).2]
  have hlook : alookup t.position (t.read).2.data = some (tval t.data t.position) := by
    rw [read_lookup_self, read_fst]
  refine ⟨?_, cells01_dinsert (read_cells01 hc01) hw,
    keysND_dinsert (read_keysND hnd)⟩
  rw [sumVals_dinsert_present t.position w (t.read).2.data _ hlook,
    read_sumVals]

theorem stepTape_rel_right {t : Tape} {lt cur rt : Nat}
    (hR : TapeRel t lt cur rt) {w : Nat} (hw : w ≤ 1) :
    TapeRel (((t.read).2.write w).setPos (((t.read).2.write w).position + 1))
      (2 * lt + w) (rt % 2) (rt / 2) := by
  obtain ⟨hcur, hbl, hbr⟩ := hR
  have hpos := (stepTape_data t w 1).1
  refine ⟨?_, ?_, ?_⟩
  · rw [hpos, stepTape_tval_ne t w 1 (by omega)]
    rw [← nbit_mod2, hbr 0]
    congr 1
    push_cast
    ring
  · intro k
    rw [hpos]
    cases k with
    | zero =>
        have hidx : t.position + 1 - 1 - ((0 : Nat) : Int) = t.position := by
          push_cast; ring
        rw [hidx, stepTape_tval_at, nbit_base hw]
    | succ k =>
        have hidx : t.position + 1 - 1 - ((k + 1 : Nat) : Int)
            = t.position - 1 - (k : Int) := by push_cast; ring
        rw [hidx, stepTape_tval_ne t w 1 (by omega), nbit_shift hw, hbl k]
  · intro k
    rw [hpos]
    have hidx : t.position + 1 + 1 + (k : Int)
        = t.position + 1 + ((k + 1 : Nat) : Int) := by push_cast; ring
    rw [hidx, stepTape_tval_ne t w 1 (by omega), nbit_div2, hbr (k + 1)]

theorem stepTape_rel_left {t : Tape} {lt cur rt : Nat}
    (hR : TapeRel t lt cur rt) {w : Nat} (hw : w ≤ 1) :
    TapeRel (((t.read).2.write w).setPos (((t.read).2.write w).position + (-1)))
      (lt / 2) (lt % 2) (2 * rt + w) := by
  obtain ⟨hcur, hbl, hbr⟩ := hR
  have hpos := (stepTape_data t w (-1)).1
  refine ⟨?_, ?_, ?_⟩
  · rw [hpos, stepTape_tval_ne t w (-1) (by omega)]
    have h0 := hbl 0
    rw [← nbit_mod2, h0]
    congr 1
    push_cast
    ring
  · intro k
    rw [hpos]
    have hidx : t.position + (-1) - 1 - (k : Int)
        = t.position - 1 - ((k + 1 : Nat) : Int) := by push_cast; ring
    rw [hidx, stepTape_tval_ne t w (-1) (by omega), nbit_div2, hbl (k + 1)]
  · intro k
    rw [hpos]
    cases k with
    | zero =>
        have hidx : t.position + (-1) + 1 + ((0 : Nat) : Int) = t.position := by
          push_cast; ring
        rw [hidx, stepTape_tval_at, nbit_base hw]
    | succ k =>
        have hidx : t.position + (-1) + 1 + ((k + 1 : Nat) : Int)
            = t.position + 1 + (k : Int) := by push_cast; ring
        rw [hidx, stepTape_tval_ne t w (-1) (by omega), nbit_shift hw, hbr k]

theorem step_sim {n : Nat} {tbl : Table} {ftbl : List FInstr}
    (hT : TblRel n tbl ftbl) {m : Machine} (hm : m.transition = tbl)
    {s lt cur rt cnt : Nat} (hR : MRel n m s lt cur rt cnt) :
    (2 * n ≤ 2 * s + cur ∧ ∃ m', m.step = .error m' ∧ m'.ones = cnt) ∨
    (2 * s + cur < 2 * n ∧
      ∃ m', m.step = .ok m' ∧ m'.transition = tbl ∧
        (tdigit n ftbl (2 * s + cur) / 2 % 2 = 1 →
          MRel n m' (tdigit n ftbl (2 * s + cur) / 4)
            (2 * lt + tdigit n ftbl (2 * s + cur) % 2) (rt % 2) (rt / 2)
            (cnt + tdigit n ftbl (2 * s + cur) % 2 - cur)) ∧
        (¬ tdigit n ftbl (2 * s + cur) / 2 % 2 = 1 →
          MRel n m' (tdigit n ftbl (2 * s + cur) / 4)
            (lt / 2) (lt % 2) (2 * rt + tdigit n ftbl (2 * s + cur) % 2)
            (cnt + tdigit n ftbl (2 * s + cur) % 2 - cur))) := by
  obtain ⟨⟨hsle, hst⟩, hTR, hcnt, hc01, hnd⟩ := hR
  have hcurv : cur = tval m.tape.data m.tape.position := hTR.1
  have hcur1 : cur ≤ 1 := by
    rw [hcurv]
    exact tval_le_one hc01 _
  by_cases hs : s = n
  · left
    refine ⟨by omega, { m with tape := (m.tape.read).2 }, ?_, ?_⟩
    · have hZ : m.state = NState.Z := by rw [hst, stOf, if_pos hs]
      simp [Machine.step, hZ, lookupTrans]
    · have hnd' : keysND (m.tape.read).2.data := read_keysND hnd
      rw [ones_eq_sumVals hnd']
      show sumVals (m.tape.read).2.data = cnt
      rw [read_sumVals, hcnt]
  · right
    have hsn : s < n := by omega
    have hstv : m.state = NState.st s := by rw [hst, stOf, if_neg hs]
    have hrd : (m.tape.read).1 = cur := by rw [read_fst, hcurv]
    have hlook := hT.2.2.1 s cur hsn (by omega)
    have hjlt : 2 * s + cur < ftbl.length := by
      rw [hT.1]; omega
    have hfimem : ftbl.getD (2 * s + cur) (0, true, 0) ∈ ftbl := by
      rw [List.getD_eq_getElem?_getD, List.getElem?_eq_getElem hjlt]
      exact List.getElem_mem hjlt
    have hfib := hT.2.1 _ hfimem
    have hdig : tdigit n ftbl (2 * s + cur) = icode (ftbl.getD (2 * s + cur) (0, true, 0)) := by
      unfold tdigit
      exact encode_digit ftbl
        (fun i hi => icode_lt (hT.2.1 i hi).1 (hT.2.1 i hi).2)
        (2 * s + cur) hjlt
    set fi := ftbl.getD (2 * s + cur) (0, true, 0) with hfi
    have hw1 : fi.1 ≤ 1 := hfib.1
    have hnle : fi.2.2 ≤ n := hfib.2
    have hmod2 : tdigit n ftbl (2 * s + cur) % 2 = fi.1 := by
      rw [hdig, icode_mod2 hw1]
    have hdivmod : tdigit n ftbl (2 * s + cur) / 2 % 2 = cond fi.2.1 1 0 := by
      rw [hdig, icode_div2_mod2 hw1]
    have hdiv4 : tdigit n ftbl (2 * s + cur) / 4 = fi.2.2 := by
      rw [hdig, icode_div4 hw1]
    have hstep : m.step = .ok { m with
        tape := (((m.tape.read).2.write fi.1).setPos
          (((m.tape.read).2.write fi.1).position + (if fi.2.1 then 1 else -1))),
        state := stOf n fi.2.2 } := by
      simp only [Machine.step]
      rw [hstv, hm]
      simp only [lookupTrans]
      rw [hrd, hlook]
      simp only [instrOf]
      rfl
    have hinv := stepTape_inv m.tape fi.1 (if fi.2.1 then 1 else -1) hw1 hc01 hnd
    have hcnt' : sumVals ((((m.tape.read).2.write fi.1).setPos
        (((m.tape.read).2.write fi.1).position + (if fi.2.1 then 1 else -1))).data)
          = cnt + fi.1 - cur := by
      have h1 := hinv.1
      rw [← hcurv, ← hcnt] at h1
      have hcle : cur ≤ cnt := by
        rw [hcurv, hcnt]
        exact tval_le_sumVals _ _
      omega
    refine ⟨by omega, _, hstep, hm, ?_, ?_⟩
    · intro hbr
      rw [hdivmod] at hbr
      have hmv : fi.2.1 = true := by
        cases hfv : fi.2.1
        · rw [hfv] at hbr; simp at hbr
        · rfl
      rw [hmod2, hdiv4]
      refine ⟨⟨hnle, rfl⟩, ?_, ?_, hinv.2.1, hinv.2.2⟩
      · show TapeRel _ (2 * lt + fi.1) (rt % 2) (rt / 2)
        have := stepTape_rel_right hTR hw1
        rw [hmv] at *
        simpa using this
      · show _ = sumVals _
        rw [hcnt']
    · intro hbr
      rw [hdivmod] at hbr
      have hmv : fi.2.1 = false := by
        cases hfv : fi.2.1
        · rfl
        · rw [hfv] at hbr; simp at hbr
      rw [hmod2, hdiv4]
      refine ⟨⟨hnle, rfl⟩, ?_, ?_, hinv.2.1, hinv.2.2⟩
      · show TapeRel _ (lt / 2) (lt % 2) (2 * rt + fi.1)
        have := stepTape_rel_left hTR hw1
        rw [hmv] at *
        simpa using this
      · show _ = sumVals _
        rw [hcnt']

theorem frunN_zero (B T nn s lt cur rt cnt : Nat) :
    frunN B T nn 0 s lt cur rt cnt = (false, cnt) := rfl

theorem frunN_succ_t (n : Nat) (ftbl : List FInstr)
    (fuel s lt cur rt cnt : Nat) :
    frunN (4 * (n + 1)) (encodeTable (4 * (n + 1)) ftbl) (2 * n)
        (fuel + 1) s lt cur rt cnt =
      if 2 * s + cur < 2 * n then
        (if tdigit n ftbl (2 * s + cur) / 2 % 2 = 1 then
          frunN (4 * (n + 1)) (encodeTable (4 * (n + 1)) ftbl) (2 * n) fuel
            (tdigit n ftbl (2 * s + cur) / 4)
            (2 * lt + tdigit n ftbl (2 * s + cur) % 2) (rt % 2) (rt / 2)
            (cnt + tdigit n ftbl (2 * s + cur) % 2 - cur)
        else
          frunN (4 * (n + 1)) (encodeTable (4 * (n + 1)) ftbl) (2 * n) fuel
            (tdigit n ftbl (2 * s + cur) / 4)
            (lt / 2) (lt % 2) (2 * rt + tdigit n ftbl (2 * s + cur) % 2)
            (cnt + tdigit n ftbl (2 * s + cur) % 2 - cur))
      else (true, cnt) := rfl

theorem run_sim {n : Nat} {tbl : Table} {ftbl : List FInstr}
    (hT : TblRel n tbl ftbl) :
    ∀ (fuel : Nat) (m : Machine) (s lt cur rt cnt : Nat),
      m.transition = tbl → MRel n m s lt cur rt cnt →
      (∀ m', m.runSteps fuel = .error m' →
        frunN (4 * (n + 1)) (encodeTable (4 * (n + 1)) ftbl) (2 * n)
          fuel s lt cur rt cnt = (true, m'.ones)) ∧
      (∀ m', m.runSteps fuel = .ok m' →
        (frunN (4 * (n + 1)) (encodeTable (4 * (n + 1)) ftbl) (2 * n)
          fuel s lt cur rt cnt).1 = false)
  | 0, m, s, lt, cur, rt, cnt, hm, hR => by
      constructor
      · intro m' h
        simp [Machine.runSteps] at h
      · intro m' h
        rw [frunN_zero]
  | fuel+1, m, s, lt, cur, rt, cnt, hm, hR => by
      rcases step_sim hT hm hR with
        ⟨hge, m', hstep, hones⟩ | ⟨hlt, m', hstep, htr, hRight, hLeft⟩
      · constructor
        · intro m'' h
          simp only [Machine.runSteps, hstep] at h
          injection h with h2
          subst h2
          rw [frunN_succ_t, if_neg (by omega), hones]
        · intro m'' h
          simp only [Machine.runSteps, hstep] at h
          exact absurd h (by simp)
      · constructor
        · intro m'' h
          simp only [Machine.runSteps, hstep] at h
          rw [frunN_succ_t, if_pos hlt]
          by_cases hb : tdigit n ftbl (2 * s + cur) / 2 % 2 = 1
          · rw [if_pos hb]
            exact (run_sim hT fuel m' _ _ _ _ _ htr (hRight hb)).1 m'' h
          · rw [if_neg hb]
            exact (run_sim hT fuel m' _ _ _ _ _ htr (hLeft hb)).1 m'' h
        · intro m'' h
          simp only [Machine.runSteps, hstep] at h
          rw [frunN_succ_t, if_pos hlt]
          by_cases hb : tdigit n ftbl (2 * s + cur) / 2 % 2 = 1
          · rw [if_pos hb]
            exact (run_sim hT fuel m' _ _ _ _ _ htr (hRight hb)).2 m'' h
          · rw [if_neg hb]
            exact (run_sim hT fuel m' _ _ _ _ _ htr (hLeft hb)).2 m'' h

theorem TblRel_buildTable {n : Nat} {fl : List FInstr}
    (hn : 0 < n) (hlen : fl.length = 2 * n)
    (hmem : ∀ i ∈ fl, i ∈ fastInstructions n) :
    TblRel n (buildTable n (fl.map (instrOf n))) fl := by
  have hmaplen : (fl.map (instrOf n)).length = 2 * n := by
    simp [hlen]
  refine ⟨hlen, fun i hi => mem_fastInstructions (hmem i hi), ?_, ?_⟩
  · intro s sym hs hsym
    rw [alookup_buildTable hn hmaplen s sym,
      if_pos ⟨by omega, hsym⟩]
    rw [getD_map_instrOf fl (by omega)]
  · intro s sym v hv
    rw [alookup_buildTable hn hmaplen s sym] at hv
    by_cases h : 2 * s + sym < 2 * n ∧ sym < 2
    · exact ⟨by omega, h.2⟩
    · rw [if_neg h] at hv
      cases hv

theorem frunN_no_halt {n : Nat} {ftbl : List FInstr}
    (hlen : ftbl.length = 2 * n)
    (hb : ∀ i ∈ ftbl, i.1 ≤ 1 ∧ i.2.2 ≤ n)
    (hnoZ : ∀ i ∈ ftbl, i.2.2 < n) :
    ∀ (fuel s lt cur rt cnt : Nat), s < n → cur ≤ 1 →
      (frunN (4 * (n + 1)) (encodeTable (4 * (n + 1)) ftbl) (2 * n)
        fuel s lt cur rt cnt).1 = false
  | 0, s, lt, cur, rt, cnt, hs, hcur => by rw [frunN_zero]
  | fuel+1, s, lt, cur, rt, cnt, hs, hcur => by
      rw [frunN_succ_t, if_pos (by omega)]
      have hjlt : 2 * s + cur < ftbl.length := by omega
      have hfimem : ftbl.getD (2 * s + cur) (0, true, 0) ∈ ftbl := by
        rw [List.getD_eq_getElem?_getD, List.getElem?_eq_getElem hjlt]
        exact List.getElem_mem hjlt
      have hdig : tdigit n ftbl (2 * s + cur)
          = icode (ftbl.getD (2 * s + cur) (0, true, 0)) := by
        unfold tdigit
        exact encode_digit ftbl
          (fun i hi => icode_lt (hb i hi).1 (hb i hi).2) (2 * s + cur) hjlt
      have hdiv4 : tdigit n ftbl (2 * s + cur) / 4
          = (ftbl.getD (2 * s + cur) (0, true, 0)).2.2 := by
        rw [hdig, icode_div4 (hb _ hfimem).1]
      have hs' : tdigit n ftbl (2 * s + cur) / 4 < n := by
        rw [hdiv4]
        exact hnoZ _ hfimem
      by_cases hbr : tdigit n ftbl (2 * s + cur) / 2 % 2 = 1
      · rw [if_pos hbr]
        exact frunN_no_halt hlen hb hnoZ fuel _ _ _ _ _ hs' (by omega)
      · rw [if_neg hbr]
        exact frunN_no_halt hlen hb hnoZ fuel _ _ _ _ _ hs' (by omega)

theorem MRel_init {n : Nat} (hn : 0 < n) (tbl : Table) :
    MRel n ({ transition := tbl } : Machine) 0 0 0 0 0 := by
  refine ⟨⟨by omega, ?_⟩, ⟨rfl, ?_, ?_⟩, rfl, ?_, ?_⟩
  · rw [stOf, if_neg (by omega)]
  · intro k
    rw [nbit_zero]
    rfl
  · intro k
    rw [nbit_zero]
    rfl
  · intro p hp
    exact absurd hp (List.not_mem_nil p)
  · simp [keysND, Tape.init]

theorem score_sim {n : Nat} {fl : List FInstr}
    (hfl : fl ∈ listProd (fastInstructions n) (2 * n)) :
    scoreF (buildTable n (fl.map (instrOf n))) = fscore n fl := by
  obtain ⟨hlen, hmem⟩ := mem_listProd hfl
  have hb : ∀ i ∈ fl, i.1 ≤ 1 ∧ i.2.2 ≤ n :=
    fun i hi => mem_fastInstructions (hmem i hi)
  cases hHZ : hasHalt n fl with
  | false =>
      have hnoZ : ∀ i ∈ fl, i.2.2 < n := by
        intro i hi
        have := List.any_eq_false.mp hHZ i hi
        simp at this
        omega
      have hfs : fscore n fl = 0 := by
        unfold fscore
        rw [hHZ]
      rw [hfs]
      by_cases hn : n = 0
      · subst hn
        have hfl0 : fl = [] := List.length_eq_zero.mp (by omega)
        subst hfl0
        decide
      · have hn' : 0 < n := by omega
        have hT := TblRel_buildTable hn' hlen hmem
        unfold scoreF
        cases hr : Machine.runSteps
            { transition := buildTable n (fl.map (instrOf n)) } (107 + 1) with
        | ok c => rfl
        | error c =>
            have hsim := (run_sim hT (107 + 1)
              { transition := buildTable n (fl.map (instrOf n)) }
              0 0 0 0 0 rfl (MRel_init hn' _)).1 c hr
            have hf := frunN_no_halt hlen hb hnoZ (107 + 1) 0 0 0 0 0
              (by omega) (by omega)
            rw [hsim] at hf
            simp at hf
  | true =>
      have hn' : 0 < n := by
        obtain ⟨i, hi, -⟩ := List.any_eq_true.mp hHZ
        have : fl.length ≠ 0 := by
          intro h
          rw [List.length_eq_zero.mp h] at hi
          exact absurd hi (List.not_mem_nil i)
        omega
      have hT := TblRel_buildTable hn' hlen hmem
      have hM := MRel_init hn' (buildTable n (fl.map (instrOf n)))
      have hsim := run_sim hT (107 + 1)
        { transition := buildTable n (fl.map (instrOf n)) } 0 0 0 0 0 rfl hM
      have hfs : fscore n fl =
          Prod.casesOn (frunN (4 * (n + 1)) (encodeTable (4 * (n + 1)) fl)
              (2 * n) 108 0 0 0 0 0)
            (fun halted cnt => Bool.casesOn halted 0 cnt) := by
        unfold fscore
        rw [hHZ]
      rw [hfs]
      unfold scoreF
      cases hr : Machine.runSteps
          { transition := buildTable n (fl.map (instrOf n)) } (107 + 1) with
      | ok c =>
          have hfalse := hsim.2 c hr
          have h108 : (107 : Nat) + 1 = 108 := rfl
          rw [h108] at hfalse
          show 0 = Bool.casesOn
            (frunN (4 * (n + 1)) (encodeTable (4 * (n + 1)) fl)
              (2 * n) 108 0 0 0 0 0).1 0
            (frunN (4 * (n + 1)) (encodeTable (4 * (n + 1)) fl)
              (2 * n) 108 0 0 0 0 0).2
          rw [hfalse]
      | error c =>
          have htrue := hsim.1 c hr
          have h108 : (107 : Nat) + 1 = 108 := rfl
          rw [h108] at htrue
          show c.ones = Prod.casesOn
            (frunN (4 * (n + 1)) (encodeTable (4 * (n + 1)) fl)
              (2 * n) 108 0 0 0 0 0)
            (fun halted cnt => Bool.casesOn halted 0 cnt)
          rw [htrue]

/-! ### Fold lemmas and the search equivalence (C2) -/

theorem foldl_congr_mem {α β : Type} (f g : β → α → β) :
    ∀ (l : List α) (b : β), (∀ b' a, a ∈ l → f b' a = g b' a) →
      l.foldl f b = l.foldl g b
  | [], b, _ => rfl
  | x :: l, b, h => by
      simp only [List.foldl_cons]
      rw [h b x (List.mem_cons_self _ _),
        foldl_congr_mem f g l _
          (fun b' a ha => h b' a (List.mem_cons_of_mem _ ha))]

theorem foldl_max_flatMap {α β : Type} (f : β → Nat) (g : α → List β) :
    ∀ (l : List α),
      (l.flatMap g).foldl (fun b x => max b (f x)) 0 =
        l.foldl (fun b a => max b ((g a).foldl (fun b x => max b (f x)) 0)) 0
  | [] => rfl
  | a :: l => by
      rw [List.flatMap_cons, List.foldl_append, foldl_max_init f (l.flatMap g),
        foldl_max_flatMap f g l, List.foldl_cons]
      rw [foldl_max_init (fun a => (g a).foldl (fun b x => max b (f x)) 0) l
        (max 0 ((g a).foldl (fun b x => max b (f x)) 0))]
      simp

theorem fbest_eq_fold {n : Nat} (A : List FInstr) :
    ∀ (k : Nat) (acc : List FInstr → List FInstr),
      fbest n A k acc =
        (listProd A k).foldl (fun b l => max b (fscore n (acc l))) 0
  | 0, acc => by simp [fbest, listProd]
  | k+1, acc => by
      show A.foldl (fun b a => max b (fbest n A k fun l => acc (a :: l))) 0 = _
      have hinner : (fun b a => max b (fbest n A k fun l => acc (a :: l)))
          = (fun (b : Nat) (a : FInstr) => max b ((listProd A k).foldl
              (fun b l => max b (fscore n (acc (a :: l)))) 0)) := by
        funext b a
        rw [fbest_eq_fold A k (fun l => acc (a :: l))]
      rw [hinner]
      show _ = (A.flatMap fun a => (listProd A k).map (a :: ·)).foldl
          (fun b l => max b (fscore n (acc l))) 0
      rw [foldl_max_flatMap (fun l => fscore n (acc l))
        (fun a => (listProd A k).map (a :: ·)) A]
      have hmap : (fun (b : Nat) (a : FInstr) => max b
            (((listProd A k).map (a :: ·)).foldl
              (fun b l => max b (fscore n (acc l))) 0))
          = (fun (b : Nat) (a : FInstr) => max b ((listProd A k).foldl
              (fun b l => max b (fscore n (acc (a :: l)))) 0)) := by
        funext b a
        rw [List.foldl_map]
      rw [hmap]

theorem listProd_map {α β : Type} (f : α → β) (A : List α) :
    ∀ k, listProd (A.map f) k = (listProd A k).map (List.map f)
  | 0 => rfl
  | k+1 => by
      show (A.map f).flatMap (fun a => (listProd (A.map f) k).map (a :: ·)) = _
      rw [listProd_map f A k, List.flatMap_map]
      show _ = (A.flatMap fun a => (listProd A k).map (a :: ·)).map (List.map f)
      rw [List.map_flatMap]
      congr 1
      funext a
      rw [List.map_map, List.map_map]
      rfl

theorem enum_instructions_eq_map (n : Nat) :
    enum_instructions n = (fastInstructions n).map (instrOf n) := by
  unfold enum_instructions fastInstructions
  have hstates : (NState.Z :: (List.range n).map NState.st).reverse
      = ((List.range n).reverse ++ [n]).map (stOf n) := by
    rw [List.reverse_cons, List.map_append, ← List.map_reverse]
    congr 1
    · apply List.map_congr_left
      intro s hs
      rw [List.mem_reverse, List.mem_range] at hs
      rw [stOf, if_neg (by omega)]
    · rw [List.map_cons, List.map_nil, stOf, if_pos rfl]
  rw [hstates, List.flatMap_map, List.map_flatMap]
  congr 1

theorem sigma_eq_fold (n : Nat) :
    sigma n = (enum_transitions n).foldl (fun b t => max b (scoreF t)) 0 := by
  unfold sigma
  have h0 : (({ transition := [] } : Machine)).ones = 0 := rfl
  rw [h0]
  apply foldl_congr_mem
  intro b t _
  unfold scoreF
  cases hr : Machine.runSteps { transition := t } (107 + 1) with
  | ok c =>
      show b = max b 0
      simp
  | error c =>
      show (if c.ones > b then c.ones else b) = max b c.ones
      by_cases h : c.ones > b
      · rw [if_pos h]
        exact (Nat.max_eq_right h.le).symm
      · rw [if_neg h]
        exact (Nat.max_eq_left (by omega)).symm

theorem sigma_eq_fastSigma (n : Nat) : sigma n = fastSigma n := by
  rw [sigma_eq_fold]
  unfold enum_transitions
  rw [enum_instructions_eq_map, listProd_map, List.map_map, List.foldl_map]
  have hfb : fastSigma n = (listProd (fastInstructions n) (2 * n)).foldl
      (fun b l => max b (fscore n l)) 0 := by
    unfold fastSigma
    rw [fbest_eq_fold]
  rw [hfb]
  apply foldl_congr_mem
  intro b fl hmem
  have hcomp : (buildTable n ∘ List.map (instrOf n)) fl
      = buildTable n (fl.map (instrOf n)) := rfl
  rw [hcomp, score_sim hmem]


/-! ### Closed-form chunk scores -/

theorem foldl_max_const {α : Type} (f : α → Nat) (c : Nat) :
    ∀ (l : List α), (∀ x ∈ l, f x = c) → l ≠ [] →
      ∀ b, l.foldl (fun b x => max b (f x)) b = max b c
  | [], _, hne => absurd rfl hne
  | [x], h, _ => by
      intro b
      simp only [List.foldl_cons, List.foldl_nil, h x (List.mem_cons_self _ _)]
  | x :: y :: t, h, _ => by
      intro b
      have ih := foldl_max_const f c (y :: t)
        (fun z hz => h z (List.mem_cons_of_mem _ hz)) (by simp) (max b c)
      simp only [List.foldl_cons]
      rw [h x (List.mem_cons_self _ _)]
      simp only [List.foldl_cons] at ih
      rw [ih, Nat.max_assoc, Nat.max_self]

theorem listProd_ne_nil {α : Type} {A : List α} (hA : A ≠ []) :
    ∀ k, listProd A k ≠ []
  | 0 => by simp [listProd]
  | k+1 => by
      obtain ⟨a, ha⟩ := List.exists_mem_of_ne_nil A hA
      obtain ⟨l, hl⟩ := List.exists_mem_of_ne_nil (listProd A k)
        (listProd_ne_nil hA k)
      show A.flatMap (fun a => (listProd A k).map (a :: ·)) ≠ []
      exact List.ne_nil_of_mem
        (List.mem_flatMap.mpr ⟨a, ha, List.mem_map.mpr ⟨l, hl, rfl⟩⟩)

theorem tdigit_zero {n : Nat} {i : FInstr} (l : List FInstr) (hw : i.1 ≤ 1)
    (hle : i.2.2 ≤ n) : tdigit n (i :: l) 0 = icode i := by
  unfold tdigit
  rw [pow_zero, Nat.div_one]
  show (icode i + (4 * (n + 1)) * encodeTable (4 * (n + 1)) l) % (4 * (n + 1))
      = icode i
  rw [Nat.add_mul_mod_self_left, Nat.mod_eq_of_lt (icode_lt hw hle)]

theorem frunN_stuck_left {n : Nat} {i : FInstr} (l : List FInstr)
    (hn : 0 < n) (hw : i.1 ≤ 1) (hmv : i.2.1 = false) (hnxt : i.2.2 = 0) :
    ∀ (fuel rt cnt : Nat),
      (frunN (4 * (n + 1)) (encodeTable (4 * (n + 1)) (i :: l)) (2 * n)
        fuel 0 0 0 rt cnt).1 = false
  | 0, rt, cnt => by rw [frunN_zero]
  | fuel+1, rt, cnt => by
      rw [frunN_succ_t, if_pos (show 2 * 0 + 0 < 2 * n by omega)]
      simp only [Nat.mul_zero, Nat.add_zero, Nat.zero_div, Nat.zero_mod,
        Nat.sub_zero]
      rw [tdigit_zero l hw (by omega), icode_div2_mod2 hw, hmv,
        icode_div4 hw, hnxt]
      rw [if_neg (by simp)]
      exact frunN_stuck_left l hn hw hmv hnxt fuel _ _

theorem frunN_stuck_right {n : Nat} {i : FInstr} (l : List FInstr)
    (hn : 0 < n) (hw : i.1 ≤ 1) (hmv : i.2.1 = true) (hnxt : i.2.2 = 0) :
    ∀ (fuel lt cnt : Nat),
      (frunN (4 * (n + 1)) (encodeTable (4 * (n + 1)) (i :: l)) (2 * n)
        fuel 0 lt 0 0 cnt).1 = false
  | 0, lt, cnt => by rw [frunN_zero]
  | fuel+1, lt, cnt => by
      rw [frunN_succ_t, if_pos (show 2 * 0 + 0 < 2 * n by omega)]
      simp only [Nat.mul_zero, Nat.add_zero, Nat.zero_div, Nat.zero_mod,
        Nat.sub_zero]
      rw [tdigit_zero l hw (by omega), icode_div2_mod2 hw, hmv,
        icode_div4 hw, hnxt]
      rw [if_pos (by simp)]
      exact frunN_stuck_right l hn hw hmv hnxt fuel _ _

theorem frunN_halt_two {n : Nat} {i : FInstr} (l : List FInstr)
    (hn : 0 < n) (hw : i.1 ≤ 1) (hnxt : i.2.2 = n) (fuel lt rt cnt : Nat) :
    frunN (4 * (n + 1)) (encodeTable (4 * (n + 1)) (i :: l)) (2 * n)
      (fuel + 1 + 1) 0 lt 0 rt cnt = (true, cnt + i.1) := by
  rw [frunN_succ_t, if_pos (show 2 * 0 + 0 < 2 * n by omega)]
  simp only [Nat.mul_zero, Nat.add_zero, Nat.sub_zero]
  rw [tdigit_zero l hw (by omega), icode_div2_mod2 hw,
    icode_div4 hw, hnxt, icode_mod2 hw]
  cases hmv : i.2.1
  · rw [if_neg (by simp)]
    rw [frunN_succ_t, if_neg (show ¬ (2 * n + lt % 2 < 2 * n) by omega)]
  · rw [if_pos (by simp)]
    rw [frunN_succ_t, if_neg (show ¬ (2 * n + rt % 2 < 2 * n) by omega)]

theorem fscore_stuck {i : FInstr} (l : List FInstr) (hw : i.1 ≤ 1)
    (hnxt : i.2.2 = 0) : fscore 2 (i :: l) = 0 := by
  unfold fscore
  cases hH : hasHalt 2 (i :: l)
  · rfl
  · rcases hr : frunN (4 * (2 + 1)) (encodeTable (4 * (2 + 1)) (i :: l))
        (2 * 2) 108 0 0 0 0 0 with ⟨b, c⟩
    have hb : b = false := by
      cases hmv : i.2.1
      · have h := frunN_stuck_left (n := 2) l (by omega) hw hmv hnxt 108 0 0
        rw [hr] at h
        exact h
      · have h := frunN_stuck_right (n := 2) l (by omega) hw hmv hnxt 108 0 0
        rw [hr] at h
        exact h
    rw [hb]

theorem fscore_halt {i : FInstr} (l : List FInstr) (hw : i.1 ≤ 1)
    (hnxt : i.2.2 = 2) : fscore 2 (i :: l) = i.1 := by
  have hH : hasHalt 2 (i :: l) = true := by
    simp [hasHalt, hnxt]
  unfold fscore
  rw [hH, show (108 : Nat) = 106 + 1 + 1 from rfl,
    frunN_halt_two (n := 2) l (by omega) hw hnxt 106 0 0 0]
  simp

theorem chunkVal_stuck (w : Nat) (mv : Bool) (hw : w ≤ 1) :
    chunkVal (w, mv, 0) = 0 := by
  show fbest 2 (fastInstructions 2) 3 (fun l => (w, mv, 0) :: l) = 0
  rw [fbest_eq_fold]
  have h := foldl_max_const (fun l => fscore 2 ((w, mv, 0) :: l)) 0
    (listProd (fastInstructions 2) 3) (fun x _ => fscore_stuck x hw rfl)
    (listProd_ne_nil (by decide) 3) 0
  exact h.trans rfl

theorem chunkVal_halts (w : Nat) (mv : Bool) (hw : w ≤ 1) :
    chunkVal (w, mv, 2) = w := by
  show fbest 2 (fastInstructions 2) 3 (fun l => (w, mv, 2) :: l) = w
  rw [fbest_eq_fold]
  have h := foldl_max_const (fun l => fscore 2 ((w, mv, 2) :: l)) w
    (listProd (fastInstructions 2) 3) (fun x _ => fscore_halt x hw rfl)
    (listProd_ne_nil (by decide) 3) 0
  exact h.trans (Nat.zero_max w)

/-! ### Evaluating the fast search (C2) -/

set_option maxRecDepth 1000000
set_option maxHeartbeats 16000000

theorem fastSigma_one : fastSigma 1 = 1 := by decide!

theorem chunkVal_0 : chunkVal (0, false, 1) = 2 := by decide!

theorem chunkVal_1 : chunkVal (0, true, 1) = 2 := by decide!

theorem chunkVal_2 : chunkVal (1, false, 1) = 4 := by decide!

theorem chunkVal_3 : chunkVal (1, true, 1) = 4 := by decide!

theorem chunkVal_4 : chunkVal (0, false, 0) = 0 := chunkVal_stuck 0 false (by omega)

theorem chunkVal_5 : chunkVal (0, true, 0) = 0 := chunkVal_stuck 0 true (by omega)

theorem chunkVal_6 : chunkVal (1, false, 0) = 0 := chunkVal_stuck 1 false (by omega)

theorem chunkVal_7 : chunkVal (1, true, 0) = 0 := chunkVal_stuck 1 true (by omega)

theorem chunkVal_8 : chunkVal (0, false, 2) = 0 := chunkVal_halts 0 false (by omega)

theorem chunkVal_9 : chunkVal (0, true, 2) = 0 := chunkVal_halts 0 true (by omega)

theorem chunkVal_10 : chunkVal (1, false, 2) = 1 := chunkVal_halts 1 false (by omega)

theorem chunkVal_11 : chunkVal (1, true, 2) = 1 := chunkVal_halts 1 true (by omega)

theorem fastSigma_two_fold : fastSigma 2
    = (fastInstructions 2).foldl (fun b a => max b (chunkVal a)) 0 := rfl

attribute [irreducible] chunkVal

theorem fastSigma_two : fastSigma 2 = 4 := by
  rw [fastSigma_two_fold]
  rw [show fastInstructions 2 = [(0, false, 1), (0, true, 1), (1, false, 1),
    (1, true, 1), (0, false, 0), (0, true, 0), (1, false, 0), (1, true, 0),
    (0, false, 2), (0, true, 2), (1, false, 2), (1, true, 2)] from rfl]
  rw [List.foldl_cons, chunkVal_0]
  rw [List.foldl_cons, chunkVal_1]
  rw [List.foldl_cons, chunkVal_2]
  rw [List.foldl_cons, chunkVal_3]
  rw [List.foldl_cons, chunkVal_4]
  rw [List.foldl_cons, chunkVal_5]
  rw [List.foldl_cons, chunkVal_6]
  rw [List.foldl_cons, chunkVal_7]
  rw [List.foldl_cons, chunkVal_8]
  rw [List.foldl_cons, chunkVal_9]
  rw [List.foldl_cons, chunkVal_10]
  rw [List.foldl_cons, chunkVal_11]
  rw [List.foldl_nil]
  decide

/-- C2: the exhaustive search `sigma`, run with the historically-used
step budget `107 + 1`, returns 1 for one state and 4 for two states —
the maximum achievable `ones()` among halting machines of those
sizes. -/
theorem sigma_values : sigma 1 = 1 ∧ sigma 2 = 4 :=
  ⟨(sigma_eq_fastSigma 1).trans fastSigma_one,
   (sigma_eq_fastSigma 2).trans fastSigma_two⟩
